import Mathlib

/-!
Verification of the changelog-generation core (tag resolver, reference
equivalence detector, changelog aggregator) against its TypeScript source
(src/tag.ts, src/changelog.ts).  Strings are handled through their
character lists so every definition is executable by the kernel.
-/

/-! ## String utilities (JS string operations, modelled on character lists) -/

/-- JS `String#startsWith`. -/
def strStartsWith (s pat : String) : Bool := pat.data.isPrefixOf s.data

/-- JS `String#endsWith`. -/
def strEndsWith (s pat : String) : Bool := pat.data.isSuffixOf s.data

/-- Drop the first `n` characters of a string. -/
def strDropChars (s : String) (n : Nat) : String := ⟨s.data.drop n⟩

/-- Take the first `n` characters of a string (JS `substring(0, n)`). -/
def strTakeChars (s : String) (n : Nat) : String := ⟨s.data.take n⟩

/-- Split a character list at every occurrence of `sep`
(the accumulator holds the current chunk, reversed). -/
def splitCharAux (sep : Char) (acc : List Char) : List Char → List (List Char)
  | [] => [acc.reverse]
  | c :: cs => if c == sep then acc.reverse :: splitCharAux sep [] cs else splitCharAux sep (c :: acc) cs

/-- Join character-list chunks with a separator character. -/
def joinSepChar (sep : Char) : List (List Char) → List Char
  | [] => []
  | [x] => x
  | x :: y :: rest => x ++ sep :: joinSepChar sep (y :: rest)

/-- Join strings with a separator string (JS `Array#join`). -/
def joinSep (sep : String) : List String → String
  | [] => ""
  | [x] => x
  | x :: y :: rest => x ++ sep ++ joinSep sep (y :: rest)

/-- Replace the first occurrence of `pat` in a character list by `rep`
(JS `String#replace` with a plain-string pattern). -/
def replaceFirstAux (pat rep : List Char) : List Char → List Char
  | [] => []
  | c :: cs =>
    if pat.isPrefixOf (c :: cs) then rep ++ (c :: cs).drop pat.length
    else c :: replaceFirstAux pat rep cs

/-- JS `String#replace` with a plain-string pattern (first occurrence only). -/
def replaceFirst (s pat rep : String) : String := ⟨replaceFirstAux pat.data rep.data s.data⟩

/-- Numeric value of a decimal digit character. -/
def digitVal (c : Char) : Nat := c.toNat - 48

/-- Decimal value of a digit list. -/
def digitsToNat (l : List Char) : Nat := l.foldl (fun a c => a * 10 + digitVal c) 0

/-- Nonempty and all decimal digits. -/
def isDigits (l : List Char) : Bool := !l.isEmpty && l.all (·.isDigit)

/-- Parse a decimal numeral, matching the regex `\d+` (leading zeros allowed,
as in the dev-tag pattern of src/changelog.ts). -/
def parseDigits (l : List Char) : Option Nat :=
  if isDigits l then some (digitsToNat l) else none

/-- Parse a strict semver numeric component: digits without leading zeros. -/
def parseNumStrict (l : List Char) : Option Nat :=
  if isDigits l && (l.length == 1 || l.head? != some '0') then some (digitsToNat l) else none

/-- Uppercase hexadecimal digit. -/
def hexDigit (n : Nat) : Char := if n < 10 then Char.ofNat (48 + n) else Char.ofNat (55 + n)

/-- UTF-8 bytes of a unicode code point. -/
def utf8Bytes (n : Nat) : List Nat :=
  if n < 128 then [n]
  else if n < 2048 then [192 + n / 64, 128 + n % 64]
  else if n < 65536 then [224 + n / 4096, 128 + n / 64 % 64, 128 + n % 64]
  else [240 + n / 262144, 128 + n / 4096 % 64, 128 + n / 64 % 64, 128 + n % 64]

/-- Characters `encodeURIComponent` leaves unescaped:
letters, digits, and `- _ . ! ~ * ( )` plus the apostrophe (code 39). -/
def uriUnreserved (c : Char) : Bool :=
  c.isAlphanum || c == '-' || c == '_' || c == '.' || c == '!' || c == '~' ||
    c == '*' || c == Char.ofNat 39 || c == '(' || c == ')'

/-- JS `encodeURIComponent`: percent-encode every UTF-8 byte of the
non-unreserved characters. -/
def encodeURIComponent (s : String) : String :=
  ⟨s.data.flatMap fun c =>
    if uriUnreserved c then [c]
    else (utf8Bytes c.toNat).flatMap fun b => ['%', hexDigit (b / 16), hexDigit (b % 16)]⟩

/-! ## Semantic versions

`parseSemVer` and the `SemVer` comparison live in `src/utils` (not under
`src/`); they wrap the npm `semver` package. -/

/-- A prerelease identifier: numeric identifiers compare numerically and are
lower than alphanumeric ones. -/
inductive PreId where
  | num (n : Nat)
  | str (s : String)
  deriving DecidableEq

/-- Modelled from the spec: standard semver ordering of single prerelease
identifiers (numeric below alphanumeric, each kind ordered internally). -/
def PreId.comp : PreId → PreId → Ordering
  | .num a, .num b => compare a b
  | .num _, .str _ => .lt
  | .str _, .num _ => .gt
  | .str a, .str b => compare a b

/-- Modelled from the spec: lexicographic comparison of prerelease identifier
sequences; a longer sequence wins over its own proper prefix. -/
def preListComp : List PreId → List PreId → Ordering
  | [], [] => .eq
  | [], _ :: _ => .lt
  | _ :: _, [] => .gt
  | a :: as, b :: bs =>
    match PreId.comp a b with
    | .eq => preListComp as bs
    | o => o

/-- ReleaseVersion of the spec: major, minor, patch and the ordered sequence
of prerelease identifiers. -/
structure SemVer where
  major : Nat
  minor : Nat
  patch : Nat
  prerelease : List PreId
  deriving DecidableEq

/-- Modelled from the spec: standard semantic-version ordering including
prerelease precedence (a prerelease sorts below the corresponding stable
version), as implemented by the npm semver package used by src/utils. -/
def SemVer.compare (a b : SemVer) : Ordering :=
  ((Ord.compare a.major b.major).then
    ((Ord.compare a.minor b.minor).then (Ord.compare a.patch b.patch))).then
    (match a.prerelease, b.prerelease with
      | [], [] => .eq
      | [], _ :: _ => .gt
      | _ :: _, [] => .lt
      | x :: xs, y :: ys => preListComp (x :: xs) (y :: ys))

/-- Check all parses succeed. -/
def traverseOpt {α β : Type} (f : α → Option β) : List α → Option (List β)
  | [] => some []
  | x :: xs =>
    match f x, traverseOpt f xs with
    | some y, some ys => some (y :: ys)
    | _, _ => none

/-- Parse one prerelease identifier: all-digit identifiers (without leading
zeros) become numeric, other nonempty alphanumeric-or-hyphen identifiers
stay textual, anything else invalidates the version. -/
def parsePreId (l : List Char) : Option PreId :=
  if isDigits l then
    if l.length == 1 || l.head? != some '0' then some (.num (digitsToNat l)) else none
  else if !l.isEmpty && l.all (fun c => c.isAlphanum || c == '-') then some (.str ⟨l⟩)
  else none

/-- Modelled from the spec: `parseSemVer` of src/utils — optional semantic
version parsed from a release name (optional leading `v`, `major.minor.patch`,
optional `-`-introduced dot-separated prerelease identifiers, optional
`+`-introduced build metadata which is ignored). -/
def parseSemVer (s : String) : Option SemVer :=
  let l := match s.data with
    | 'v' :: rest => rest
    | l => l
  let l := (splitCharAux '+' [] l).headD []
  match splitCharAux '-' [] l with
  | [] => none
  | main :: rest =>
    match splitCharAux '.' [] main with
    | [ma, mi, pa] =>
      match parseNumStrict ma, parseNumStrict mi, parseNumStrict pa with
      | some ma, some mi, some pa =>
        if rest.isEmpty then some ⟨ma, mi, pa, []⟩
        else
          match traverseOpt parsePreId (splitCharAux '.' [] (joinSepChar '-' rest)) with
          | some pres => some ⟨ma, mi, pa, pres⟩
          | none => none
      | _, _, _ => none
    | _ => none

/-! ## Tag/Release Resolver (src/tag.ts, `getTagInfo`)

The paginated tag stream is modelled as the flat list of `TagRecord`s in
publish order; the current commit SHA and the parsed current version are the
other inputs of the scanning loop. -/

/-- A tag as returned by `listTags`: symbolic name and commit SHA. -/
structure TagRecord where
  name : String
  sha : String
  deriving DecidableEq

/-- The tag-scanning loop of `getTagInfo` (src/tag.ts lines 84-158):
skip tags whose SHA equals the current SHA; in non-semver mode take the first
remaining tag; in semver mode skip unparsable tags, tags not strictly older
than the current version, and channel-incompatible prereleases, returning the
first tag that survives. -/
def getTagInfo (curSha : String) (semVer : Option SemVer) : List TagRecord → Option TagRecord
  | [] => none
  | t :: ts =>
    if t.sha == curSha then getTagInfo curSha semVer ts
    else
      match semVer with
      | none => some t
      | some cur =>
        match parseSemVer t.name with
        | none => getTagInfo curSha semVer ts
        | some version =>
          if SemVer.compare cur version ≠ Ordering.gt then getTagInfo curSha semVer ts
          else
            if cur.prerelease.length > 0 then
              if version.prerelease.length > 0 then
                if cur.prerelease.head? ≠ version.prerelease.head? then getTagInfo curSha semVer ts
                else some t
              else getTagInfo curSha semVer ts
            else
              if version.prerelease.length > 0 then getTagInfo curSha semVer ts
              else some t

/-- The spec's description of a qualifying candidate tag, written from the
spec's words for comparison with the loop above: its name parses as a
semantic version, its reference differs from the current reference, its
version is strictly less than the current version, and its prerelease channel
is compatible with the current version's channel. -/
def qualifiesSpec (curSha : String) (cur : SemVer) (t : TagRecord) : Bool :=
  !(t.sha == curSha) &&
    match parseSemVer t.name with
    | none => false
    | some v =>
      (SemVer.compare cur v == Ordering.gt) &&
        (if cur.prerelease.isEmpty then v.prerelease.isEmpty
         else !v.prerelease.isEmpty && (v.prerelease.head? == cur.prerelease.head?))

/-- Boolean equality with `Ordering.gt`, evaluated. -/
lemma beq_gt_self : (Ordering.gt == Ordering.gt) = true := rfl

/-- Boolean equality with `Ordering.gt`, refuted. -/
lemma beq_gt_eq_false {x : Ordering} (h : x ≠ Ordering.gt) : (x == Ordering.gt) = false := by
  cases x <;> first | rfl | exact absurd rfl h

/-- One step of the scanning loop, phrased through the spec's filter. -/
lemma getTagInfo_cons (curSha : String) (cur : SemVer) (t : TagRecord) (ts : List TagRecord) :
    getTagInfo curSha (some cur) (t :: ts) =
      if qualifiesSpec curSha cur t then some t else getTagInfo curSha (some cur) ts := by
  rw [show getTagInfo curSha (some cur) (t :: ts) =
      (if t.sha == curSha then getTagInfo curSha (some cur) ts
       else
        match parseSemVer t.name with
        | none => getTagInfo curSha (some cur) ts
        | some version =>
          if SemVer.compare cur version ≠ Ordering.gt then getTagInfo curSha (some cur) ts
          else
            if cur.prerelease.length > 0 then
              if version.prerelease.length > 0 then
                if cur.prerelease.head? ≠ version.prerelease.head? then
                  getTagInfo curSha (some cur) ts
                else some t
              else getTagInfo curSha (some cur) ts
            else
              if version.prerelease.length > 0 then getTagInfo curSha (some cur) ts
              else some t) from rfl]
  unfold qualifiesSpec
  by_cases hsha : t.sha == curSha
  · simp [hsha]
  · cases hv : parseSemVer t.name with
    | none => simp [hsha, hv]
    | some v =>
      by_cases hc : SemVer.compare cur v = Ordering.gt
      · by_cases hcp : cur.prerelease.isEmpty
        · have hcn : cur.prerelease = [] := by simpa [List.isEmpty_iff] using hcp
          by_cases hvp : v.prerelease.isEmpty
          · have hvn : v.prerelease = [] := by simpa [List.isEmpty_iff] using hvp
            simp [hsha, hv, hc, hcn, hvn, beq_gt_self]
          · have hvn : v.prerelease ≠ [] := by simpa [List.isEmpty_iff] using hvp
            simp [hsha, hv, hc, hcn, hvn, List.length_pos]
        · have hcn : cur.prerelease ≠ [] := by simpa [List.isEmpty_iff] using hcp
          by_cases hvp : v.prerelease.isEmpty
          · have hvn : v.prerelease = [] := by simpa [List.isEmpty_iff] using hvp
            simp [hsha, hv, hc, hcn, hvn, List.length_pos, List.isEmpty_iff]
          · have hvn : v.prerelease ≠ [] := by simpa [List.isEmpty_iff] using hvp
            by_cases hid : cur.prerelease.head? = v.prerelease.head?
            · simp [hsha, hv, hc, hcn, hvn, List.length_pos, List.isEmpty_iff, hid, beq_gt_self]
            · simp [hsha, hv, hc, hcn, hvn, List.length_pos, List.isEmpty_iff, hid, Ne.symm hid]
      · simp [hsha, hv, beq_gt_eq_false hc]
        exact fun h => absurd h hc

/-- C4: in semver mode the resolver returns exactly the first tag of the
stream, scanned in published order, that passes all the filters. -/
theorem getTagInfo_first_qualifying (curSha : String) (cur : SemVer) (tags : List TagRecord) :
    getTagInfo curSha (some cur) tags = tags.find? (qualifiesSpec curSha cur) := by
  induction tags with
  | nil => rfl
  | cons t ts ih =>
    rw [getTagInfo_cons, List.find?_cons]
    cases hq : qualifiesSpec curSha cur t <;> simp [hq, ih]

/-- C1: prerelease-channel compatibility rule of the resolver.  For a
candidate tag whose version parses and is strictly less than the current
version (and whose SHA differs from the current SHA), the scanning loop
selects it iff: a prerelease current version requires the candidate to carry
a prerelease whose first identifier equals the current first identifier, and
a stable current version requires a stable candidate. -/
theorem getTagInfo_prerelease_channel (curSha : String) (cur v : SemVer) (t : TagRecord)
    (hv : parseSemVer t.name = some v)
    (hsha : t.sha ≠ curSha)
    (hlt : SemVer.compare cur v = Ordering.gt) :
    (getTagInfo curSha (some cur) [t] = some t ↔
      (if cur.prerelease.isEmpty then v.prerelease.isEmpty
       else !v.prerelease.isEmpty && (v.prerelease.head? == cur.prerelease.head?)) = true) := by
  have hsha' : (t.sha == curSha) = false := by simp [hsha]
  have hq : qualifiesSpec curSha cur t =
      (if cur.prerelease.isEmpty then v.prerelease.isEmpty
       else !v.prerelease.isEmpty && (v.prerelease.head? == cur.prerelease.head?)) := by
    simp [qualifiesSpec, hsha', hv, hlt, beq_gt_self]
  rw [getTagInfo_cons, hq]
  cases hcond : (if cur.prerelease.isEmpty then v.prerelease.isEmpty
      else !v.prerelease.isEmpty && (v.prerelease.head? == cur.prerelease.head?)) <;>
    simp [hcond, getTagInfo]

/-- Witness for C1: current version 1.2.0-beta.1, candidate tag
1.2.0-beta.0 — same channel, selected. -/
theorem getTagInfo_prerelease_channel_witness :
    getTagInfo "t0" (some ⟨1, 2, 0, [.str "beta", .num 1]⟩) [⟨"1.2.0-beta.0", "t1"⟩] =
      some ⟨"1.2.0-beta.0", "t1"⟩ :=
  (getTagInfo_prerelease_channel "t0" ⟨1, 2, 0, [.str "beta", .num 1]⟩
      ⟨1, 2, 0, [.str "beta", .num 0]⟩ ⟨"1.2.0-beta.0", "t1"⟩
      (by decide) (by decide) (by decide)).mpr (by decide)

/-! ## Changelog Aggregator (src/changelog.ts, `generateChangelog` commit loop
and `formatChangelog`)

`parseCommitMessage` lives in src/utils; its per-commit result enters the
loop as data (`Parsed`, with `none` covering both a `null` result and a
thrown parse error, which the loop skips identically). -/

/-- Result of `parseCommitMessage` for one commit. -/
structure Parsed where
  merge : Bool
  revert : Bool
  type : String
  scope : String
  description : String
  breaking : Bool
  pr : Option Nat
  deriving DecidableEq

/-- One commit of the fetched range: SHA, author login (absent when the
commit has no linked author) and the parse result of its message. -/
structure RawCommit where
  sha : String
  authorLogin : Option String
  parsed : Option Parsed
  deriving DecidableEq

/-- `LogI` of src/changelog.ts. -/
structure LogI where
  breaking : Bool
  description : String
  references : List String
  deriving DecidableEq

/-- `ScopeGroupI` of src/changelog.ts. -/
structure ScopeGroupI where
  scope : String
  logs : List LogI
  deriving DecidableEq

/-- `TypeGroupI` of src/changelog.ts. -/
structure TypeGroupI where
  type : String
  scopes : List ScopeGroupI
  deriving DecidableEq

/-- The configuration read from src/utils at the start of
`generateChangelog`: the raw-type to display-type map (a JS object, modelled
as an association list of its own properties in insertion order), the default
display type and the rendering switches. -/
structure BuildCfg where
  typeMap : List (String × String)
  defaultType : String
  includePRLinks : Bool
  includeCommitLinks : Bool
  mentionAuthors : Bool
  useGithubAutolink : Bool
  url : String
  deriving DecidableEq

/-- The commit-link alternative of the reference composition
(src/changelog.ts line 561). -/
def commitLinkPart (cfg : BuildCfg) (c : RawCommit) : List String :=
  if cfg.includeCommitLinks then
    [if cfg.useGithubAutolink then c.sha
     else "[" ++ strTakeChars c.sha 7 ++ "](" ++ cfg.url ++ "/commit/" ++ c.sha ++ ")"]
  else []

/-- The PR-link/commit-link choice (src/changelog.ts lines 560-561); a PR
number `0` is falsy in JS and falls back to the commit link. -/
def linkPart (cfg : BuildCfg) (c : RawCommit) (p : Parsed) : List String :=
  match p.pr with
  | some (n + 1) =>
    if cfg.includePRLinks then
      [if cfg.useGithubAutolink then "#" ++ toString (n + 1)
       else "[#" ++ toString (n + 1) ++ "](" ++ cfg.url ++ "/issues/" ++ toString (n + 1) ++ ")"]
    else commitLinkPart cfg c
  | _ => commitLinkPart cfg c

/-- `commit.author?.login` with JS truthiness (an empty login is falsy). -/
def authorName (c : RawCommit) : Option String :=
  match c.authorLogin with
  | some u => if u.data.isEmpty then none else some u
  | none => none

/-- A fresh `LogI` (src/changelog.ts lines 548-556). -/
def newLog (p : Parsed) : LogI :=
  { breaking := p.breaking, description := p.description, references := [] }

/-- Reference composition for one commit onto its log entry
(src/changelog.ts lines 558-581): PR or commit link, optional author
mention, and the merge of consecutive identical mentions into an
ampersand-joined co-authorship rewrite of the previous reference. -/
def addRef (cfg : BuildCfg) (c : RawCommit) (p : Parsed) (l : LogI) : LogI :=
  let ref := linkPart cfg c p
  let plain : LogI :=
    if ref.isEmpty then l else { l with references := l.references ++ [joinSep " " ref] }
  match authorName c with
  | some u =>
    if cfg.mentionAuthors then
      let mention := "by @" ++ u
      let ref := ref ++ [mention]
      match l.references.getLast? with
      | some last =>
        if strEndsWith last mention then
          { l with references := l.references.dropLast ++
              [replaceFirst last mention ("& " ++ joinSep " " ref)] }
        else { l with references := l.references ++ [joinSep " " ref] }
      | none => { l with references := l.references ++ [joinSep " " ref] }
    else plain
  | none => plain

/-- Find-or-create of the log with this description, then the reference push
(src/changelog.ts lines 546-581). -/
def insertLog (cfg : BuildCfg) (c : RawCommit) (p : Parsed) : List LogI → List LogI
  | [] => [addRef cfg c p (newLog p)]
  | l :: ls =>
    if l.description == p.description then addRef cfg c p l :: ls
    else l :: insertLog cfg c p ls

/-- Find-or-create of the scope group (src/changelog.ts lines 535-544). -/
def insertScope (cfg : BuildCfg) (c : RawCommit) (p : Parsed) :
    List ScopeGroupI → List ScopeGroupI
  | [] => [{ scope := p.scope, logs := insertLog cfg c p [] }]
  | sg :: sgs =>
    if sg.scope == p.scope then { sg with logs := insertLog cfg c p sg.logs } :: sgs
    else sg :: insertScope cfg c p sgs

/-- Find-or-create of the type group (src/changelog.ts lines 524-533). -/
def insertType (cfg : BuildCfg) (c : RawCommit) (p : Parsed) (displayType : String) :
    List TypeGroupI → List TypeGroupI
  | [] => [{ type := displayType, scopes := insertScope cfg c p [] }]
  | g :: gs =>
    if g.type == displayType then { g with scopes := insertScope cfg c p g.scopes } :: gs
    else g :: insertType cfg c p displayType gs

/-- One iteration of the commit loop (src/changelog.ts lines 498-582): skip
unparsable, merge and revert commits and commits whose raw type is empty or
absent from `typeMap`; otherwise count the commit and insert it under
`typeMap[type]`. -/
def stepCommit (cfg : BuildCfg) (st : List TypeGroupI × Nat) (c : RawCommit) :
    List TypeGroupI × Nat :=
  match c.parsed with
  | none => st
  | some p =>
    if p.merge || p.revert then st
    else if p.type.data.isEmpty then st
    else
      match cfg.typeMap.lookup p.type with
      | none => st
      | some displayType => (insertType cfg c p displayType st.1, st.2 + 1)

/-- The whole commit loop: the built `typeGroups` tree and
`processedCommitCount`. -/
def processCommits (cfg : BuildCfg) (cs : List RawCommit) : List TypeGroupI × Nat :=
  cs.foldl (stepCommit cfg) ([], 0)

/-- JS `[...new Set(l)]`: first occurrences, in order. -/
def uniqueAux (seen : List String) : List String → List String
  | [] => []
  | x :: xs => if x ∈ seen then uniqueAux seen xs else x :: uniqueAux (x :: seen) xs

/-- `unique` of src/changelog.ts. -/
def uniqueList (l : List String) : List String := uniqueAux [] l

/-- Stable insertion into a scope list sorted by scope name.  JS sorts with
`localeCompare`; the model uses code-point order, which agrees on the ASCII
scope names the action handles. -/
def insertSortedScope (sg : ScopeGroupI) : List ScopeGroupI → List ScopeGroupI
  | [] => [sg]
  | x :: xs => if decide (x.scope ≤ sg.scope) then x :: insertSortedScope sg xs else sg :: x :: xs

/-- `sortBy(typeGroup.scopes, "scope")` of src/changelog.ts. -/
def sortScopes : List ScopeGroupI → List ScopeGroupI
  | [] => []
  | x :: xs => insertSortedScope x (sortScopes xs)

/-- One rendered entry bullet (src/changelog.ts lines 94-99). -/
def entryLine (ind : String) (l : LogI) : String :=
  ind ++ "* " ++ (if l.breaking then "***breaking:*** " else "") ++ l.description ++
    (if l.references.isEmpty then "" else " (" ++ joinSep ", " l.references ++ ")")

/-- The rendered lines of one scope group (src/changelog.ts lines 85-101):
an optional bold scope label, then its entries, indented iff scoped. -/
def scopeLines (sg : ScopeGroupI) : List String :=
  if sg.scope.data.isEmpty then sg.logs.map (entryLine "")
  else ("* **" ++ sg.scope ++ ":**") :: sg.logs.map (entryLine "  ")

/-- The rendered lines of one display type (src/changelog.ts lines 76-104):
nothing when no group carries the type, else a heading, the sorted scope
groups and a blank line. -/
def typeSection (groups : List TypeGroupI) (t : String) : List String :=
  match groups.find? (fun g => g.type == t) with
  | none => []
  | some g => ("## " ++ t) :: ((sortScopes g.scopes).flatMap scopeLines ++ [""])

/-- The line list built by `formatChangelog` (the `changelog` array). -/
def formatLines (groups : List TypeGroupI) (typeMap : List (String × String))
    (defaultType : String) : List String :=
  (uniqueList (typeMap.map (·.2) ++ [defaultType])).flatMap (typeSection groups)

/-- `formatChangelog` of src/changelog.ts: the deduplicated priority list of
display types drives the rendering; the lines are newline-joined. -/
def formatChangelog (groups : List TypeGroupI) (typeMap : List (String × String))
    (defaultType : String) : String :=
  joinSep "\n" (formatLines groups typeMap defaultType)

/-- A commit with a raw type mapped by no `typeMap` entry. -/
def unknownTypeCommit : RawCommit :=
  { sha := "abc1234", authorLogin := none,
    parsed := some { merge := false, revert := false, type := "zzz", scope := "",
                     description := "hello", breaking := false, pr := none } }

/-- Counterexample for C3: under no configuration does a commit whose raw
type is absent from `typeMap` reach the output — no type group at all is
created for it, in particular none under `defaultType`. -/
theorem typeMap_fallback_counterexample :
    ¬ ∃ cfg : BuildCfg, cfg.typeMap.lookup "zzz" = none ∧
      (processCommits cfg [unknownTypeCommit]).1 ≠ [] := by
  rintro ⟨cfg, hl, hne⟩
  apply hne
  simp [processCommits, stepCommit, unknownTypeCommit, hl]

/-- C3 (amended): the commit loop supports only the strict mode — a commit
whose raw type is absent from `typeMap` is dropped unchanged under every
configuration; `defaultType` never receives it. -/
theorem unknown_type_always_dropped (cfg : BuildCfg) (st : List TypeGroupI × Nat)
    (c : RawCommit) (p : Parsed) (hp : c.parsed = some p)
    (hl : cfg.typeMap.lookup p.type = none) :
    stepCommit cfg st c = st := by
  unfold stepCommit
  rw [hp]
  by_cases h1 : (p.merge || p.revert) = true
  · simp [h1]
  · by_cases h2 : p.type.data.isEmpty = true <;> simp [h1, h2, hl]

/-- A sample configuration whose `typeMap` ignores the type `zzz`. -/
def featOnlyCfg : BuildCfg :=
  { typeMap := [("feat", "Features")], defaultType := "Other Changes",
    includePRLinks := true, includeCommitLinks := true, mentionAuthors := true,
    useGithubAutolink := true, url := "u" }

/-- Witness for the amended C3. -/
theorem unknown_type_always_dropped_witness :
    stepCommit featOnlyCfg ([], 0) unknownTypeCommit = ([], 0) :=
  unknown_type_always_dropped featOnlyCfg ([], 0) unknownTypeCommit _ rfl (by decide)

/-! ### Structural invariants of the grouping tree -/

/-- The reference push never changes the description of a log. -/
lemma addRef_description (cfg : BuildCfg) (c : RawCommit) (p : Parsed) (l : LogI) :
    (addRef cfg c p l).description = l.description := by
  unfold addRef
  cases authorName c <;> dsimp only <;> (repeat' split) <;> rfl

/-- Description list after the find-or-create log insertion. -/
lemma insertLog_map_desc (cfg : BuildCfg) (c : RawCommit) (p : Parsed) (logs : List LogI) :
    (insertLog cfg c p logs).map (·.description) =
      if p.description ∈ logs.map (·.description) then logs.map (·.description)
      else logs.map (·.description) ++ [p.description] := by
  induction logs with
  | nil => simp [insertLog, addRef_description, newLog]
  | cons l ls ih =>
    by_cases h : l.description = p.description
    · simp [insertLog, h, addRef_description]
    · have hb : (l.description == p.description) = false := by simp [h]
      have hrec : insertLog cfg c p (l :: ls) = l :: insertLog cfg c p ls := by
        simp [insertLog, hb]
      rw [hrec, List.map_cons, ih, List.map_cons]
      by_cases hm : p.description ∈ ls.map (·.description)
      · rw [if_pos hm, if_pos (by simp [hm])]
      · rw [if_neg hm, if_neg (by simp [hm, Ne.symm h]), List.cons_append]

/-- Scope list after the find-or-create scope insertion. -/
lemma insertScope_map_scope (cfg : BuildCfg) (c : RawCommit) (p : Parsed)
    (sgs : List ScopeGroupI) :
    (insertScope cfg c p sgs).map (·.scope) =
      if p.scope ∈ sgs.map (·.scope) then sgs.map (·.scope)
      else sgs.map (·.scope) ++ [p.scope] := by
  induction sgs with
  | nil => simp [insertScope]
  | cons sg sgs ih =>
    by_cases h : sg.scope = p.scope
    · simp [insertScope, h]
    · have hb : (sg.scope == p.scope) = false := by simp [h]
      have hrec : insertScope cfg c p (sg :: sgs) = sg :: insertScope cfg c p sgs := by
        simp [insertScope, hb]
      rw [hrec, List.map_cons, ih, List.map_cons]
      by_cases hm : p.scope ∈ sgs.map (·.scope)
      · rw [if_pos hm, if_pos (by simp [hm])]
      · rw [if_neg hm, if_neg (by simp [hm, Ne.symm h]), List.cons_append]

/-- Type list after the find-or-create type insertion. -/
lemma insertType_map_type (cfg : BuildCfg) (c : RawCommit) (p : Parsed) (dt : String)
    (gs : List TypeGroupI) :
    (insertType cfg c p dt gs).map (·.type) =
      if dt ∈ gs.map (·.type) then gs.map (·.type)
      else gs.map (·.type) ++ [dt] := by
  induction gs with
  | nil => simp [insertType]
  | cons g gs ih =>
    by_cases h : g.type = dt
    · simp [insertType, h]
    · have hb : (g.type == dt) = false := by simp [h]
      have hrec : insertType cfg c p dt (g :: gs) = g :: insertType cfg c p dt gs := by
        simp [insertType, hb]
      rw [hrec, List.map_cons, ih, List.map_cons]
      by_cases hm : dt ∈ gs.map (·.type)
      · rw [if_pos hm, if_pos (by simp [hm])]
      · rw [if_neg hm, if_neg (by simp [hm, Ne.symm h]), List.cons_append]

/-- Nodup survives a find-or-create key-list update. -/
lemma nodup_findOrCreate {l : List String} {a : String}
    (h : l.Nodup) : (if a ∈ l then l else l ++ [a]).Nodup := by
  by_cases ha : a ∈ l
  · simpa [ha]
  · simp [ha, List.nodup_append, h]

/-- Invariant of the grouping tree: type names, scope names within a type
and descriptions within a scope are each duplicate-free. -/
def GroupsWF (gs : List TypeGroupI) : Prop :=
  (gs.map (·.type)).Nodup ∧
    ∀ g ∈ gs, (g.scopes.map (·.scope)).Nodup ∧
      ∀ sg ∈ g.scopes, (sg.logs.map (·.description)).Nodup

/-- The log insertion keeps descriptions duplicate-free. -/
lemma insertLog_nodup (cfg : BuildCfg) (c : RawCommit) (p : Parsed) {logs : List LogI}
    (h : (logs.map (·.description)).Nodup) :
    ((insertLog cfg c p logs).map (·.description)).Nodup := by
  rw [insertLog_map_desc]
  exact nodup_findOrCreate h

/-- Membership after the scope insertion: every scope group is an old one,
an old one with logs updated by the log insertion, or the fresh group. -/
lemma insertScope_logs_nodup (cfg : BuildCfg) (c : RawCommit) (p : Parsed) :
    ∀ sgs : List ScopeGroupI, (∀ sg ∈ sgs, (sg.logs.map (·.description)).Nodup) →
      ∀ sg ∈ insertScope cfg c p sgs, (sg.logs.map (·.description)).Nodup := by
  intro sgs
  induction sgs with
  | nil =>
    intro _ sg hsg
    simp only [insertScope, List.mem_singleton] at hsg
    subst hsg
    exact insertLog_nodup cfg c p (by simp)
  | cons a as ih =>
    intro hl sg hsg
    by_cases hk : (a.scope == p.scope) = true
    · rw [show insertScope cfg c p (a :: as) =
          { a with logs := insertLog cfg c p a.logs } :: as by simp [insertScope, hk]] at hsg
      rcases List.mem_cons.mp hsg with h1 | h2
      · subst h1
        exact insertLog_nodup cfg c p (hl a (by simp))
      · exact hl sg (List.mem_cons_of_mem a h2)
    · rw [show insertScope cfg c p (a :: as) = a :: insertScope cfg c p as by
          simp [insertScope, hk]] at hsg
      rcases List.mem_cons.mp hsg with h1 | h2
      · rw [h1]; exact hl a (by simp)
      · exact ih (fun x hx => hl x (List.mem_cons_of_mem a hx)) sg h2

/-- The type insertion keeps the whole tree well-formed below the type
level. -/
lemma insertType_inner_wf (cfg : BuildCfg) (c : RawCommit) (p : Parsed) (dt : String) :
    ∀ gs : List TypeGroupI, (∀ g ∈ gs, (g.scopes.map (·.scope)).Nodup ∧
      ∀ sg ∈ g.scopes, (sg.logs.map (·.description)).Nodup) →
    ∀ g ∈ insertType cfg c p dt gs, (g.scopes.map (·.scope)).Nodup ∧
      ∀ sg ∈ g.scopes, (sg.logs.map (·.description)).Nodup := by
  intro gs
  induction gs with
  | nil =>
    intro _ g hg
    simp only [insertType, List.mem_singleton] at hg
    subst hg
    constructor
    · rw [insertScope_map_scope]; exact nodup_findOrCreate (by simp)
    · exact insertScope_logs_nodup cfg c p [] (by simp)
  | cons a as ih =>
    intro h g hg
    by_cases hk : (a.type == dt) = true
    · rw [show insertType cfg c p dt (a :: as) =
          { a with scopes := insertScope cfg c p a.scopes } :: as by simp [insertType, hk]] at hg
      rcases List.mem_cons.mp hg with h1 | h2
      · subst h1
        refine ⟨?_, insertScope_logs_nodup cfg c p a.scopes (h a (by simp)).2⟩
        rw [insertScope_map_scope]
        exact nodup_findOrCreate (h a (by simp)).1
      · exact h g (List.mem_cons_of_mem a h2)
    · rw [show insertType cfg c p dt (a :: as) = a :: insertType cfg c p dt as by
          simp [insertType, hk]] at hg
      rcases List.mem_cons.mp hg with h1 | h2
      · rw [h1]; exact h a (by simp)
      · exact ih (fun x hx => h x (List.mem_cons_of_mem a hx)) g h2

/-- One step of the commit loop preserves the tree invariant. -/
lemma stepCommit_wf (cfg : BuildCfg) (st : List TypeGroupI × Nat) (c : RawCommit)
    (h : GroupsWF st.1) : GroupsWF (stepCommit cfg st c).1 := by
  unfold stepCommit
  cases c.parsed with
  | none => exact h
  | some p =>
    dsimp only
    by_cases h1 : (p.merge || p.revert) = true
    · simp only [h1, if_true]; exact h
    · simp only [h1, if_false]
      by_cases h2 : p.type.data.isEmpty = true
      · simp only [h2, if_true]; exact h
      · simp only [h2, if_false]
        cases hl : cfg.typeMap.lookup p.type with
        | none => exact h
        | some dt =>
          show GroupsWF (insertType cfg c p dt st.1)
          refine ⟨?_, insertType_inner_wf cfg c p dt st.1 h.2⟩
          rw [insertType_map_type]
          exact nodup_findOrCreate h.1

/-- The commit loop always yields a well-formed tree. -/
lemma processCommits_wf (cfg : BuildCfg) (cs : List RawCommit) :
    GroupsWF (processCommits cfg cs).1 := by
  have key : ∀ (cs : List RawCommit) (st : List TypeGroupI × Nat), GroupsWF st.1 →
      GroupsWF (cs.foldl (stepCommit cfg) st).1 := by
    intro cs
    induction cs with
    | nil => intro st h; exact h
    | cons c cs ih => intro st h; exact ih _ (stepCommit_wf cfg st c h)
  exact key cs ([], 0) ⟨by simp, by simp⟩

/-! ### Heading uniqueness in the rendered lines -/

/-- A type heading starts with a hash character. -/
lemma headChar_heading (t : String) : ("## " ++ t).data.head? = some '#' := rfl

/-- A scope label line starts with an asterisk. -/
lemma headChar_label (s : String) : ("* **" ++ s ++ ":**").data.head? = some '*' := rfl

/-- An unscoped entry line starts with an asterisk. -/
lemma headChar_entry_plain (l : LogI) : (entryLine "" l).data.head? = some '*' := rfl

/-- A scoped entry line starts with a space. -/
lemma headChar_entry_ind (l : LogI) : (entryLine "  " l).data.head? = some ' ' := rfl

/-- No line of a scope group is a type heading. -/
lemma scopeLines_no_heading (sg : ScopeGroupI) (t : String) :
    ∀ l ∈ scopeLines sg, (l == "## " ++ t) = false := by
  intro l hl
  have hne : l ≠ "## " ++ t := by
    intro he
    have hh : l.data.head? = some '#' := by rw [he]; exact headChar_heading t
    unfold scopeLines at hl
    by_cases hs : sg.scope.data.isEmpty = true
    · rw [if_pos hs] at hl
      obtain ⟨x, _, hx⟩ := List.mem_map.mp hl
      rw [← hx, headChar_entry_plain] at hh
      exact absurd hh (by decide)
    · rw [if_neg hs] at hl
      rcases List.mem_cons.mp hl with h1 | h2
      · rw [h1, headChar_label] at hh
        exact absurd hh (by decide)
      · obtain ⟨x, _, hx⟩ := List.mem_map.mp h2
        rw [← hx, headChar_entry_ind] at hh
        exact absurd hh (by decide)
  simp [hne]

/-- Appending a fixed string on the left is injective. -/
lemma string_append_left_cancel {s t1 t2 : String} (h : s ++ t1 = s ++ t2) : t1 = t2 := by
  cases t1 with
  | mk d1 =>
    cases t2 with
    | mk d2 =>
      have hd : s.data ++ d1 = s.data ++ d2 := congrArg String.data h
      exact congrArg String.mk (List.append_cancel_left hd)

/-- Count of occurrences of the heading of `t` in one type section. -/
lemma typeSection_countP (groups : List TypeGroupI) (tx t : String) :
    (typeSection groups tx).countP (fun l => l == "## " ++ t) ≤ if tx = t then 1 else 0 := by
  unfold typeSection
  cases hf : groups.find? (fun g => g.type == tx) with
  | none => simp
  | some g =>
    have hbody : ((sortScopes g.scopes).flatMap scopeLines ++ [""]).countP
        (fun l => l == "## " ++ t) = 0 := by
      rw [List.countP_eq_zero]
      intro l hl
      rcases List.mem_append.mp hl with h1 | h2
      · obtain ⟨sg, _, hsg⟩ := List.mem_flatMap.mp h1
        simpa using scopeLines_no_heading sg t l hsg
      · have : l = "" := by simpa using h2
        subst this
        simp only [Bool.not_eq_true, beq_eq_false_iff_ne, ne_eq]
        intro he
        exact List.noConfusion (congrArg String.data he)
    rw [List.countP_cons, hbody]
    by_cases ht : tx = t
    · simp [ht]
    · have : (("## " ++ tx) == ("## " ++ t)) = false := by
        simp only [beq_eq_false_iff_ne, ne_eq]
        intro he
        exact ht (string_append_left_cancel he)
      simp [this, ht]

/-- Every element produced by `uniqueAux` avoids the seen list. -/
lemma mem_uniqueAux {x : String} : ∀ (seen l : List String), x ∈ uniqueAux seen l → x ∉ seen := by
  intro seen l
  induction l generalizing seen with
  | nil => intro h; simp [uniqueAux] at h
  | cons y ys ih =>
    intro h
    unfold uniqueAux at h
    by_cases hy : y ∈ seen
    · exact ih seen (by simpa [hy] using h)
    · rw [if_neg hy] at h
      rcases List.mem_cons.mp h with h1 | h2
      · subst h1; exact hy
      · intro hx
        exact ih (y :: seen) h2 (List.mem_cons_of_mem y hx)

/-- The deduplicated display-type list has no duplicates. -/
lemma nodup_uniqueAux : ∀ (seen l : List String), (uniqueAux seen l).Nodup := by
  intro seen l
  induction l generalizing seen with
  | nil => simp [uniqueAux]
  | cons y ys ih =>
    unfold uniqueAux
    by_cases hy : y ∈ seen
    · simpa [hy] using ih seen
    · rw [if_neg hy]
      exact List.nodup_cons.mpr
        ⟨fun h => mem_uniqueAux (y :: seen) ys h (List.mem_cons_self y seen), ih (y :: seen)⟩

/-- Sections of types other than `t` contain no heading of `t`. -/
lemma flatMap_sections_countP_zero (groups : List TypeGroupI) (t : String) :
    ∀ ts : List String, t ∉ ts →
      (ts.flatMap (typeSection groups)).countP (fun l => l == "## " ++ t) = 0 := by
  intro ts
  induction ts with
  | nil => intro _; simp
  | cons x xs ih =>
    intro hmem
    rw [List.flatMap_cons, List.countP_append]
    have hx : x ≠ t := fun h => hmem (h ▸ List.mem_cons_self x xs)
    have h1 : (typeSection groups x).countP (fun l => l == "## " ++ t) = 0 := by
      have := typeSection_countP groups x t
      rw [if_neg hx] at this
      omega
    rw [h1, ih (fun h => hmem (List.mem_cons_of_mem x h))]

/-- A duplicate-free display-type list renders at most one heading per
type. -/
lemma flatMap_sections_countP_le_one (groups : List TypeGroupI) (t : String) :
    ∀ ts : List String, ts.Nodup →
      (ts.flatMap (typeSection groups)).countP (fun l => l == "## " ++ t) ≤ 1 := by
  intro ts
  induction ts with
  | nil => intro _; simp
  | cons x xs ih =>
    intro hnd
    rw [List.flatMap_cons, List.countP_append]
    have hxs := (List.nodup_cons.mp hnd).2
    by_cases hx : x = t
    · have h2 : (xs.flatMap (typeSection groups)).countP (fun l => l == "## " ++ t) = 0 :=
        flatMap_sections_countP_zero groups t xs (hx ▸ (List.nodup_cons.mp hnd).1)
      have h1 := typeSection_countP groups x t
      rw [if_pos hx] at h1
      omega
    · have h1 := typeSection_countP groups x t
      rw [if_neg hx] at h1
      have h2 := ih hxs
      omega

/-- C10: for every `typeMap` (in particular one whose values contain
duplicates) the rendered line list carries at most one heading per display
type, and the commit loop aggregates all commits sharing a display name into
a single type group (the type names of the built tree are duplicate-free). -/
theorem heading_unique_per_display_type :
    (∀ (groups : List TypeGroupI) (tm : List (String × String)) (dt t : String),
      (formatLines groups tm dt).countP (fun l => l == "## " ++ t) ≤ 1) ∧
    ∀ (cfg : BuildCfg) (cs : List RawCommit),
      ((processCommits cfg cs).1.map (·.type)).Nodup := by
  constructor
  · intro groups tm dt t
    exact flatMap_sections_countP_le_one groups t (uniqueList (tm.map (·.2) ++ [dt]))
      (nodup_uniqueAux [] _)
  · intro cfg cs
    exact (processCommits_wf cfg cs).1

/-! ### Reference merging per log entry -/

/-- The reference string a commit contributes to a fresh log on its own. -/
def soloRef (cfg : BuildCfg) (c : RawCommit) (p : Parsed) : List String :=
  (addRef cfg c p (newLog p)).references

/-- A configuration with author mentions enabled and autolinked commit
references. -/
def mentionCfg : BuildCfg :=
  { typeMap := [("feat", "Features")], defaultType := "Other Changes",
    includePRLinks := false, includeCommitLinks := true, mentionAuthors := true,
    useGithubAutolink := true, url := "https://example.com/o/r" }

/-- Parse result shared by the two counterexample commits. -/
def parsedFeatX : Parsed :=
  { merge := false, revert := false, type := "feat", scope := "", description := "x",
    breaking := false, pr := none }

/-- First commit: author `u`, SHA `aaa1`. -/
def commitA : RawCommit := { sha := "aaa1", authorLogin := some "u", parsed := some parsedFeatX }

/-- Second commit: same author, SHA `bbb2`. -/
def commitB : RawCommit := { sha := "bbb2", authorLogin := some "u", parsed := some parsedFeatX }

/-- Counterexample for C5: two commits with identical (type, scope,
description) and the same author.  The aggregator rewrites the previous
reference into one ampersand-joined co-authorship string, so the entry's
reference list is not the concatenation of the two commits' individual
references. -/
theorem merge_references_counterexample :
    (processCommits mentionCfg [commitA, commitB]).1 =
      [{ type := "Features", scopes := [{ scope := "", logs :=
        [{ breaking := false, description := "x", references := ["aaa1 & bbb2 by @u"] }] }] }] ∧
    soloRef mentionCfg commitA parsedFeatX ++ soloRef mentionCfg commitB parsedFeatX =
      ["aaa1 by @u", "bbb2 by @u"] ∧
    (["aaa1 & bbb2 by @u"] : List String) ≠ ["aaa1 by @u", "bbb2 by @u"] := by
  refine ⟨by decide, by decide, by decide⟩

/-- The reference contribution of one commit when author mentions are
disabled (empty when links are disabled too). -/
def individualRef (cfg : BuildCfg) (c : RawCommit) (p : Parsed) : List String :=
  if (linkPart cfg c p).isEmpty then [] else [joinSep " " (linkPart cfg c p)]

/-- The reference contribution keyed only on the commit. -/
def commitRef (cfg : BuildCfg) (c : RawCommit) : List String :=
  match c.parsed with
  | some p => individualRef cfg c p
  | none => []

/-- A commit classified with the given type, scope and description, neither
merge nor revert. -/
def HasKey (T S D : String) (c : RawCommit) : Prop :=
  ∃ p, c.parsed = some p ∧ p.merge = false ∧ p.revert = false ∧
    p.type = T ∧ p.scope = S ∧ p.description = D

/-- The one-group one-scope one-log tree. -/
def singleChain (dt S D : String) (b : Bool) (refs : List String) : List TypeGroupI :=
  [{ type := dt, scopes := [{ scope := S, logs :=
    [{ breaking := b, description := D, references := refs }] }] }]

/-- With author mentions disabled the reference push is a plain append. -/
lemma addRef_no_mentions (cfg : BuildCfg) (c : RawCommit) (p : Parsed) (l : LogI)
    (hm : cfg.mentionAuthors = false) :
    addRef cfg c p l = { l with references := l.references ++ individualRef cfg c p } := by
  unfold addRef individualRef
  cases authorName c with
  | none =>
    dsimp only
    by_cases he : (linkPart cfg c p).isEmpty = true <;> simp [he]
  | some u =>
    dsimp only
    by_cases he : (linkPart cfg c p).isEmpty = true <;> simp [hm, he]

/-- A matching commit extends the single-chain tree by its individual
reference. -/
lemma stepCommit_singleChain (cfg : BuildCfg) (c : RawCommit) (p : Parsed)
    (dt S D : String) (b : Bool) (refs : List String) (n : Nat)
    (hm : cfg.mentionAuthors = false) (hp : c.parsed = some p)
    (hmr : p.merge = false) (hrv : p.revert = false)
    (hne : p.type.data.isEmpty = false)
    (hl : cfg.typeMap.lookup p.type = some dt)
    (hS : p.scope = S) (hD : p.description = D) :
    stepCommit cfg (singleChain dt S D b refs, n) c =
      (singleChain dt S D b (refs ++ individualRef cfg c p), n + 1) := by
  unfold stepCommit
  rw [hp]
  dsimp only
  rw [hmr, hrv]
  simp only [Bool.or_false, if_false, hne, hl, Bool.false_eq_true]
  simp [singleChain, insertType, insertScope, insertLog, hS, hD,
    addRef_no_mentions cfg c p _ hm]

/-- A matching commit turns the empty tree into the single chain. -/
lemma stepCommit_emptyGroups (cfg : BuildCfg) (c : RawCommit) (p : Parsed)
    (dt S D : String) (n : Nat)
    (hm : cfg.mentionAuthors = false) (hp : c.parsed = some p)
    (hmr : p.merge = false) (hrv : p.revert = false)
    (hne : p.type.data.isEmpty = false)
    (hl : cfg.typeMap.lookup p.type = some dt)
    (hS : p.scope = S) (hD : p.description = D) :
    stepCommit cfg ([], n) c =
      (singleChain dt S D p.breaking (individualRef cfg c p), n + 1) := by
  unfold stepCommit
  rw [hp]
  dsimp only
  rw [hmr, hrv]
  simp only [Bool.or_false, if_false, hne, hl, Bool.false_eq_true]
  simp [singleChain, insertType, insertScope, insertLog, hS, hD, newLog,
    addRef_no_mentions cfg c p _ hm]

/-- Folding same-key commits accumulates their individual references in
order. -/
lemma foldl_singleChain (cfg : BuildCfg) (T S D dt : String)
    (hm : cfg.mentionAuthors = false) (hT : T.data.isEmpty = false)
    (hl : cfg.typeMap.lookup T = some dt) (b : Bool) :
    ∀ cs : List RawCommit, (∀ c ∈ cs, HasKey T S D c) → ∀ (refs : List String) (n : Nat),
      cs.foldl (stepCommit cfg) (singleChain dt S D b refs, n) =
        (singleChain dt S D b (refs ++ cs.flatMap (commitRef cfg)), n + cs.length) := by
  intro cs
  induction cs with
  | nil => intro _ refs n; simp
  | cons c cs ih =>
    intro hk refs n
    obtain ⟨p, hp, hmr, hrv, hTy, hS, hD⟩ := hk c (by simp)
    rw [List.foldl_cons,
      stepCommit_singleChain cfg c p dt S D b refs n hm hp hmr hrv
        (by rw [hTy]; exact hT) (by rw [hTy]; exact hl) hS hD,
      ih (fun x hx => hk x (List.mem_cons_of_mem c hx)) (refs ++ individualRef cfg c p) (n + 1)]
    have hcr : commitRef cfg c = individualRef cfg c p := by simp [commitRef, hp]
    rw [List.flatMap_cons, hcr, ← List.append_assoc]
    congr 1
    simp only [List.length_cons]
    omega

/-- C5 (amended): the aggregator always produces exactly one LogEntry per
description within a (type, scope) group; and with author mentions disabled
the entry's reference list for commits sharing one (type, scope, description)
key is exactly the concatenation of each commit's individual reference (with
mentions enabled, consecutive same-author references are instead rewritten
into one co-authored string, per the counterexample). -/
theorem log_entry_merge_amended :
    (∀ (cfg : BuildCfg) (cs : List RawCommit), ∀ g ∈ (processCommits cfg cs).1,
      ∀ sg ∈ g.scopes, (sg.logs.map (·.description)).Nodup) ∧
    ∀ (cfg : BuildCfg) (T S D dt : String), cfg.mentionAuthors = false →
      T.data.isEmpty = false → cfg.typeMap.lookup T = some dt →
      ∀ (c0 : RawCommit) (p0 : Parsed) (cs : List RawCommit),
        c0.parsed = some p0 → HasKey T S D c0 → (∀ c ∈ cs, HasKey T S D c) →
        processCommits cfg (c0 :: cs) =
          (singleChain dt S D p0.breaking (commitRef cfg c0 ++ cs.flatMap (commitRef cfg)),
            cs.length + 1) := by
  constructor
  · intro cfg cs g hg sg hsg
    exact ((processCommits_wf cfg cs).2 g hg).2 sg hsg
  · intro cfg T S D dt hm hT hl c0 p0 cs hp0 hk0 hks
    obtain ⟨p, hp, hmr, hrv, hTy, hS, hD⟩ := hk0
    have hpp : p = p0 := by rw [hp0] at hp; exact (Option.some.injEq _ _).mp hp.symm
    subst hpp
    unfold processCommits
    rw [List.foldl_cons,
      stepCommit_emptyGroups cfg c0 p dt S D 0 hm hp0 hmr hrv
        (by rw [hTy]; exact hT) (by rw [hTy]; exact hl) hS hD,
      foldl_singleChain cfg T S D dt hm hT hl p.breaking cs hks (individualRef cfg c0 p) 1]
    have hcr : commitRef cfg c0 = individualRef cfg c0 p := by simp [commitRef, hp0]
    rw [hcr]
    congr 1
    omega

/-- The mention-free configuration used in the C5 witness. -/
def plainCfg : BuildCfg :=
  { typeMap := [("feat", "Features")], defaultType := "Other Changes",
    includePRLinks := false, includeCommitLinks := true, mentionAuthors := false,
    useGithubAutolink := true, url := "https://example.com/o/r" }

/-- Witness for the amended C5: a two-commit same-key build with mentions
disabled concatenates the two commit references into the one log entry. -/
theorem log_entry_merge_amended_witness :
    (([{ breaking := false, description := "x", references := ["aaa1 by @u"] }] :
        List LogI).map (·.description)).Nodup ∧
    processCommits plainCfg (commitA :: [commitB]) =
      (singleChain "Features" "" "x" parsedFeatX.breaking
        (commitRef plainCfg commitA ++ List.flatMap [commitB] (commitRef plainCfg)),
        List.length [commitB] + 1) := by
  constructor
  · exact log_entry_merge_amended.1 mentionCfg [commitA]
      { type := "Features", scopes := [{ scope := "", logs :=
        [{ breaking := false, description := "x", references := ["aaa1 by @u"] }] }] }
      (by decide)
      { scope := "", logs :=
        [{ breaking := false, description := "x", references := ["aaa1 by @u"] }] }
      (by decide)
  · exact log_entry_merge_amended.2 plainCfg "feat" "" "x" "Features" rfl (by decide) (by decide)
      commitA parsedFeatX [commitB] rfl
      ⟨parsedFeatX, rfl, rfl, rfl, rfl, rfl, rfl⟩
      (by
        intro c hc
        have hcb : c = commitB := by simpa using hc
        rw [hcb]
        exact ⟨parsedFeatX, rfl, rfl, rfl, rfl, rfl, rfl⟩)

/-! ## Reference Equivalence Detector (src/changelog.ts,
`areTagsEffectivelyIdentical`)

The GitHub REST collaborator is modelled as a structure of pure fallible
responses; `Except.error ()` stands for a rejected API call. -/

/-- Result of `repos.compareCommits`: ahead/behind counts, status string,
the optional changed-file list length (`files` may be absent from the
response) and the commit range. -/
structure CompareData where
  ahead_by : Nat
  behind_by : Nat
  status : String
  files : Option Nat
  commits : List RawCommit
  deriving DecidableEq

/-- Result of `git.getRef`: the pointed-to object SHA and its type
(`"commit"` or `"tag"` for annotated tags). -/
structure RefObject where
  sha : String
  type : String
  deriving DecidableEq

/-- Result of `git.getCommit`: tree SHA and parent SHAs. -/
structure CommitObject where
  tree : String
  parents : List String
  deriving DecidableEq

/-- A tag entry of `repos.listTags`. -/
structure TagEntry where
  name : String
  sha : String
  deriving DecidableEq

/-- The read-only hosting-service interface consumed by src/changelog.ts. -/
structure Host where
  currentSha : String
  tags : List TagEntry
  compare : String → String → Except Unit CompareData
  getRef : String → Except Unit RefObject
  getTag : String → Except Unit String
  getCommit : String → Except Unit CommitObject
  listCommits : List RawCommit

/-- `normalizeRef` of src/changelog.ts: strip a leading `refs/tags/` or
`refs/heads/`. -/
def normalizeRef (r : String) : String :=
  if strStartsWith r "refs/tags/" then strDropChars r 10
  else if strStartsWith r "refs/heads/" then strDropChars r 11
  else r

/-- Match against the dev-tag pattern `^v(\d+)\.(\d+)\.(\d+)-develop$`. -/
def devTagMatch (s : String) : Option (Nat × Nat × Nat) :=
  match s.data with
  | 'v' :: rest =>
    if "-develop".data.isSuffixOf rest then
      match splitCharAux '.' [] (rest.take (rest.length - 8)) with
      | [ma, mi, pa] =>
        match parseDigits ma, parseDigits mi, parseDigits pa with
        | some ma, some mi, some pa => some (ma, mi, pa)
        | _, _, _ => none
      | _ => none
    else none
  | _ => none

/-- Layers 1-3 on one compare result: zero ahead and behind, zero changed
files, or an explicit `identical` status. -/
def layerOneToThree (c : CompareData) : Bool :=
  (c.ahead_by == 0 && c.behind_by == 0) || c.files == some 0 || c.status == "identical"

/-- `git.getRef` under `tags/` with fallback to `heads/`
(src/changelog.ts lines 186-204). -/
def refLookup (h : Host) (name : String) : Except Unit RefObject :=
  match h.getRef ("tags/" ++ name) with
  | .ok r => .ok r
  | .error _ => h.getRef ("heads/" ++ name)

/-- Dereference an annotated tag object to its target SHA
(src/changelog.ts lines 225-241). -/
def derefTag (h : Host) (r : RefObject) : Except Unit String :=
  if r.type == "tag" then h.getTag r.sha else .ok r.sha

/-- The sequential-dev-tag block (src/changelog.ts lines 184-270): any
thrown call aborts the whole block (fall through, `false`); object SHAs,
dereferenced commit SHAs and tree SHAs are compared in turn. -/
def devSeqBlock (h : Host) (nbase nhead : String) : Bool :=
  match refLookup h nbase, refLookup h nhead with
  | .ok rb, .ok rh =>
    if rb.sha == rh.sha then true
    else
      match derefTag h rb, derefTag h rh with
      | .ok cb, .ok ch =>
        if cb == ch then true
        else
          match h.getCommit cb, h.getCommit ch with
          | .ok ob, .ok oh => ob.tree == oh.tree
          | _, _ => false
      | _, _ => false
  | _, _ => false

/-- A resolved reference of the second approach: `git.getRef` results carry
an `object` field, `git.getCommit` results do not. -/
inductive Resolved where
  | refObj (r : RefObject)
  | commitObj (c : CommitObject)
  deriving DecidableEq

/-- `resolveRef` of the second approach (src/changelog.ts lines 308-337):
try `tags/`, then `heads/`, then a direct commit lookup whose rejection
propagates to the enclosing catch. -/
def resolveRef (h : Host) (ref : String) : Except Unit Resolved :=
  match h.getRef ("tags/" ++ (if strStartsWith ref "refs/tags/" then strDropChars ref 10 else ref)) with
  | .ok r => .ok (.refObj r)
  | .error _ =>
    match h.getRef ("heads/" ++ (if strStartsWith ref "refs/heads/" then strDropChars ref 11 else ref)) with
    | .ok r => .ok (.refObj r)
    | .error _ =>
      match h.getCommit ref with
      | .ok c => .ok (.commitObj c)
      | .error e => .error e

/-- The second approach (src/changelog.ts lines 305-375): resolve both
references; when both carry an `object`, equal SHAs prove equivalence, else
equal tree SHAs of the two commits do; every other outcome proves nothing. -/
def secondApproach (h : Host) (baseRef headRef : String) : Bool :=
  match resolveRef h baseRef, resolveRef h headRef with
  | .ok (.refObj rb), .ok (.refObj rh) =>
    if rb.sha == rh.sha then true
    else
      match h.getCommit rb.sha, h.getCommit rh.sha with
      | .ok cb, .ok ch => cb.tree == ch.tree
      | _, _ => false
  | .ok _, .ok _ => false
  | _, _ => false

/-- The compare-based layers on one pair of refs (the code duplicates this
block at src/changelog.ts lines 142-172 and 275-303): a rejected call proves
nothing. -/
def stdCheck (h : Host) (x y : String) : Bool :=
  match h.compare x y with
  | .ok c => layerOneToThree c
  | .error _ => false

/-- The dev-tag special phase (src/changelog.ts lines 132-272): both
normalized refs must match the dev-tag pattern; then the compare layers on
the normalized refs, and for sequential patch numbers (difference exactly
one) the object/tree checks of `devSeqBlock`. -/
def devCheck (h : Host) (nb nh : String) : Bool :=
  match devTagMatch nb, devTagMatch nh with
  | some (bM, bm, bp), some (hM, hm, hp) =>
    stdCheck h nb nh ||
      (if bM == hM && bm == hm && (max hp bp - min hp bp) == 1
       then devSeqBlock h nb nh else false)
  | _, _ => false

/-- `areTagsEffectivelyIdentical` of src/changelog.ts: the dev-tag special
phase on the normalized refs, the standard compare layers on the original
refs, and the second approach; `false` when nothing proves equivalence. -/
def areTagsEffectivelyIdentical (h : Host) (baseRef headRef : String) : Bool :=
  devCheck h (normalizeRef baseRef) (normalizeRef headRef) ||
    stdCheck h baseRef headRef || secondApproach h baseRef headRef

/-- C6: the equivalence detector is fail-safe.  With every host call
rejected, every layer falls through and the verdict is `false` (a total
function, never an exception); and a failure of the compare layers still
falls through to the second approach, which can prove equivalence on its
own. -/
theorem areTagsEffectivelyIdentical_fail_safe (h : Host) (a b : String) :
    ((∀ x y, h.compare x y = .error ()) → (∀ x, h.getRef x = .error ()) →
      (∀ x, h.getTag x = .error ()) → (∀ x, h.getCommit x = .error ()) →
      areTagsEffectivelyIdentical h a b = false) ∧
    ((∀ x y, h.compare x y = .error ()) →
      ∀ rb rh, resolveRef h a = .ok (.refObj rb) → resolveRef h b = .ok (.refObj rh) →
        rb.sha = rh.sha → devTagMatch (normalizeRef a) = none →
        areTagsEffectivelyIdentical h a b = true) := by
  constructor
  · intro hc hr ht hco
    unfold areTagsEffectivelyIdentical devCheck stdCheck devSeqBlock refLookup secondApproach
      resolveRef
    simp only [hc, hr, hco]
    cases devTagMatch (normalizeRef a) <;> cases devTagMatch (normalizeRef b) <;> simp
  · intro hc rb rh hra hrb hsha hdev
    unfold areTagsEffectivelyIdentical devCheck stdCheck secondApproach
    rw [hdev, hra, hrb]
    simp [hc, hsha]

/-- A host whose every call is rejected. -/
def failHost : Host :=
  { currentSha := "c", tags := [], compare := fun _ _ => .error (),
    getRef := fun _ => .error (), getTag := fun _ => .error (),
    getCommit := fun _ => .error (), listCommits := [] }

/-- A host whose compare calls all fail but whose refs `a` and `b` both
resolve (as lightweight tags) to one commit SHA. -/
def sameShaHost : Host :=
  { currentSha := "c", tags := [],
    compare := fun _ _ => .error (),
    getRef := fun r => if r = "tags/a" ∨ r = "tags/b" then .ok ⟨"s", "commit"⟩ else .error (),
    getTag := fun _ => .error (),
    getCommit := fun _ => .error (), listCommits := [] }

/-- Witness for C6: all layers failing yields `false`; a compare failure
with an agreeing second approach yields `true`. -/
theorem areTagsEffectivelyIdentical_fail_safe_witness :
    areTagsEffectivelyIdentical failHost "a" "b" = false ∧
    areTagsEffectivelyIdentical sameShaHost "a" "b" = true := by
  constructor
  · exact (areTagsEffectivelyIdentical_fail_safe failHost "a" "b").1
      (fun x y => rfl) (fun x => rfl) (fun x => rfl) (fun x => rfl)
  · exact (areTagsEffectivelyIdentical_fail_safe sameShaHost "a" "b").2
      (fun x y => rfl) ⟨"s", "commit"⟩ ⟨"s", "commit"⟩ rfl rfl rfl (by decide)

/-! ### Symmetry of the equivalence verdict -/

/-- Modelled from the spec: a "fixed consistent host history" — properties
every real GitHub compare over one repository history satisfies: the ahead
count of one direction is the behind count of the other, the `identical`
status is direction-independent, and a comparison whose head contributes no
commits beyond the merge base changes no files. -/
def gitConsistent (h : Host) : Prop :=
  ∀ x y c cr, h.compare x y = .ok c → h.compare y x = .ok cr →
    c.ahead_by = cr.behind_by ∧ c.behind_by = cr.ahead_by ∧
    (c.status = "identical" ↔ cr.status = "identical") ∧
    (c.ahead_by = 0 → c.files = some 0)

/-- The compare responses of a two-commit history: `a` is the ancestor of
`b`, which changes three files. -/
def gitCompare (x y : String) : Except Unit CompareData :=
  if x = "a" ∧ y = "b" then .ok ⟨0, 2, "behind", some 0, []⟩
  else if x = "b" ∧ y = "a" then .ok ⟨2, 0, "ahead", some 3, []⟩
  else .ok ⟨0, 0, "identical", some 0, []⟩

/-- A host answering from that two-commit history, with the raw SHAs
resolvable only through `git.getCommit`. -/
def gitHost : Host :=
  { currentSha := "c", tags := [], compare := gitCompare,
    getRef := fun _ => .error (), getTag := fun _ => .error (),
    getCommit := fun r =>
      if r = "a" then .ok ⟨"t1", []⟩ else if r = "b" then .ok ⟨"t2", []⟩ else .error (),
    listCommits := [] }

/-- Counterexample for C7: over a consistent history the verdict is not
symmetric — when `b` is strictly behind `a`, `compare(a, b)` reports zero
changed files (layer 2 fires), while `compare(b, a)` reports the changed
files of the two extra commits, and no other layer succeeds. -/
theorem equivalence_symmetry_counterexample :
    gitConsistent gitHost ∧
    areTagsEffectivelyIdentical gitHost "a" "b" = true ∧
    areTagsEffectivelyIdentical gitHost "b" "a" = false := by
  refine ⟨?_, by decide, by decide⟩
  intro x y c cr hxy hyx
  have hxy' : gitCompare x y = .ok c := hxy
  have hyx' : gitCompare y x = .ok cr := hyx
  unfold gitCompare at hxy' hyx'
  by_cases h1 : x = "a" ∧ y = "b"
  · obtain ⟨hx, hy⟩ := h1
    subst hx; subst hy
    rw [if_pos ⟨rfl, rfl⟩] at hxy'
    rw [if_neg (by simp), if_pos ⟨rfl, rfl⟩] at hyx'
    injection hxy' with hc
    injection hyx' with hcr
    subst hc; subst hcr
    refine ⟨rfl, rfl, by decide, fun _ => rfl⟩
  · by_cases h2 : x = "b" ∧ y = "a"
    · obtain ⟨hx, hy⟩ := h2
      subst hx; subst hy
      rw [if_neg (by simp), if_pos ⟨rfl, rfl⟩] at hxy'
      rw [if_pos ⟨rfl, rfl⟩] at hyx'
      injection hxy' with hc
      injection hyx' with hcr
      subst hc; subst hcr
      refine ⟨rfl, rfl, by decide, fun h => absurd h (by decide)⟩
    · rw [if_neg h1, if_neg h2] at hxy'
      rw [if_neg (fun hh => h2 ⟨hh.2, hh.1⟩), if_neg (fun hh => h1 ⟨hh.2, hh.1⟩)] at hyx'
      injection hxy' with hc
      injection hyx' with hcr
      subst hc; subst hcr
      exact ⟨rfl, rfl, Iff.rfl, fun _ => rfl⟩

/-- Boolean equality is symmetric in its arguments. -/
lemma beq_swap {α : Type} [BEq α] [LawfulBEq α] (a b : α) : (a == b) = (b == a) := by
  by_cases h : a = b
  · simp [h]
  · simp [h, Ne.symm h]

/-- Fully symmetric compare responses: flipped ahead/behind counts, the
same changed-file count in both directions, direction-independent
`identical` status, and failures in matching pairs. -/
def symCompare (h : Host) : Prop :=
  ∀ x y, match h.compare x y, h.compare y x with
    | .ok c, .ok cr => c.ahead_by = cr.behind_by ∧ c.behind_by = cr.ahead_by ∧
        c.files = cr.files ∧ (c.status = "identical" ↔ cr.status = "identical")
    | .error _, .error _ => True
    | _, _ => False

/-- The compare layers are direction-independent for fully symmetric
responses. -/
lemma layerOneToThree_sym {c cr : CompareData} (h1 : c.ahead_by = cr.behind_by)
    (h2 : c.behind_by = cr.ahead_by) (h3 : c.files = cr.files)
    (h4 : c.status = "identical" ↔ cr.status = "identical") :
    layerOneToThree c = layerOneToThree cr := by
  have hst : (c.status == "identical") = (cr.status == "identical") := by
    by_cases hh : cr.status = "identical"
    · simp [hh, h4.mpr hh]
    · have hcne : ¬ c.status = "identical" := fun hcc => hh (h4.mp hcc)
      simp [hh, hcne]
  unfold layerOneToThree
  rw [h1, h2, h3, hst, Bool.and_comm]

/-- The standard check is symmetric for fully symmetric responses. -/
lemma stdCheck_sym {h : Host} (hs : symCompare h) (x y : String) :
    stdCheck h x y = stdCheck h y x := by
  have hxy := hs x y
  unfold stdCheck
  cases h1 : h.compare x y with
  | ok c =>
    cases h2 : h.compare y x with
    | ok cr =>
      rw [h1, h2] at hxy
      exact layerOneToThree_sym hxy.1 hxy.2.1 hxy.2.2.1 hxy.2.2.2
    | error e => rw [h1, h2] at hxy; exact absurd hxy (by simp)
  | error e =>
    cases h2 : h.compare y x with
    | ok cr => rw [h1, h2] at hxy; exact absurd hxy (by simp)
    | error e2 => rfl

/-- The sequential-dev-tag block is symmetric (its calls are per-ref). -/
lemma devSeqBlock_sym (h : Host) (nb nh : String) :
    devSeqBlock h nb nh = devSeqBlock h nh nb := by
  unfold devSeqBlock
  cases refLookup h nb with
  | error e => cases refLookup h nh <;> rfl
  | ok rb =>
    cases refLookup h nh with
    | error e => rfl
    | ok rh =>
      dsimp only
      rw [beq_swap rb.sha rh.sha]
      by_cases hsha : (rh.sha == rb.sha) = true
      · simp [hsha]
      · simp only [Bool.not_eq_true] at hsha
        simp only [hsha, Bool.false_eq_true, if_false]
        cases derefTag h rb with
        | error e => cases derefTag h rh <;> rfl
        | ok cb =>
          cases derefTag h rh with
          | error e => rfl
          | ok ch =>
            dsimp only
            rw [beq_swap cb ch]
            by_cases hcs : (ch == cb) = true
            · simp [hcs]
            · simp only [Bool.not_eq_true] at hcs
              simp only [hcs, Bool.false_eq_true, if_false]
              cases h.getCommit cb with
              | error e => cases h.getCommit ch <;> rfl
              | ok ob =>
                cases h.getCommit ch with
                | error e => rfl
                | ok oh => exact beq_swap ob.tree oh.tree

/-- The second approach is symmetric (its calls are per-ref). -/
lemma secondApproach_sym (h : Host) (a b : String) :
    secondApproach h a b = secondApproach h b a := by
  unfold secondApproach
  cases resolveRef h a with
  | error e =>
    cases resolveRef h b with
    | error e2 => rfl
    | ok rb => cases rb <;> rfl
  | ok ra =>
    cases resolveRef h b with
    | error e => cases ra <;> rfl
    | ok rb =>
      cases ra with
      | commitObj ca => cases rb <;> rfl
      | refObj xa =>
        cases rb with
        | commitObj cb => rfl
        | refObj xb =>
          dsimp only
          rw [beq_swap xa.sha xb.sha]
          by_cases hsha : (xb.sha == xa.sha) = true
          · simp [hsha]
          · simp only [Bool.not_eq_true] at hsha
            simp only [hsha, Bool.false_eq_true, if_false]
            cases h.getCommit xa.sha with
            | error e => cases h.getCommit xb.sha <;> rfl
            | ok ca =>
              cases h.getCommit xb.sha with
              | error e => rfl
              | ok cb => exact beq_swap ca.tree cb.tree

/-- The dev-tag phase is symmetric for fully symmetric responses. -/
lemma devCheck_sym {h : Host} (hs : symCompare h) (nb nh : String) :
    devCheck h nb nh = devCheck h nh nb := by
  unfold devCheck
  cases devTagMatch nb with
  | none => cases devTagMatch nh <;> rfl
  | some vb =>
    cases devTagMatch nh with
    | none => rfl
    | some vh =>
      obtain ⟨bM, bm, bp⟩ := vb
      obtain ⟨hM, hm, hp⟩ := vh
      dsimp only
      rw [stdCheck_sym hs, devSeqBlock_sym, beq_swap bM hM, beq_swap bm hm,
        Nat.max_comm hp bp, Nat.min_comm hp bp]

/-- C7 (amended): the verdict is unchanged by swapping the two references
whenever the host's compare responses are fully symmetric — in particular
when both directions report the same changed-file count; over a merely
consistent history the zero-changed-files layer is direction-sensitive, per
the counterexample. -/
theorem equivalence_symmetric_of_symCompare (h : Host) (hs : symCompare h) (a b : String) :
    areTagsEffectivelyIdentical h a b = areTagsEffectivelyIdentical h b a := by
  unfold areTagsEffectivelyIdentical
  rw [devCheck_sym hs, stdCheck_sym hs, secondApproach_sym]

/-- A host with constant, trivially symmetric compare responses. -/
def constHost : Host :=
  { currentSha := "c", tags := [],
    compare := fun _ _ => .ok ⟨0, 0, "identical", some 0, []⟩,
    getRef := fun _ => .error (), getTag := fun _ => .error (),
    getCommit := fun _ => .error (), listCommits := [] }

/-- Witness for the amended C7. -/
theorem equivalence_symmetric_of_symCompare_witness :
    areTagsEffectivelyIdentical constHost "p" "q" =
      areTagsEffectivelyIdentical constHost "q" "p" :=
  equivalence_symmetric_of_symCompare constHost
    (fun _ _ => ⟨rfl, rfl, rfl, Iff.rfl⟩) "p" "q"

/-! ## The retry walk of `generateChangelog` (src/changelog.ts lines 385-621)

The `while` loop is modelled as an explicit state machine: the loop-local
variables are the state, one loop body execution is one step.  JS string
truthiness makes an empty-string SHA behave like an absent one; `none`
covers both. -/

/-- The loop-local variables of `generateChangelog`. -/
structure LoopState where
  targetSha : Option String
  initialAttempt : Bool
  retryCount : Nat
  deriving DecidableEq

/-- Outcome of one loop body execution: continue with updated variables,
return a changelog string, or rethrow the compare failure
(src/changelog.ts line 480). -/
inductive StepOut where
  | next (s : LoopState)
  | done (out : String)
  | fail
  deriving DecidableEq

/-- `MAX_RETRIES` of src/changelog.ts. -/
def MAX_RETRIES : Nat := 5

/-- The retry-ceiling message (src/changelog.ts lines 619-620). -/
def unableMessage : String :=
  "## Unable to generate changelog after multiple attempts\n\n" ++
    "No significant changes could be found between the compared versions after multiple attempts."

/-- The no-significant-changes result with its compare link
(src/changelog.ts lines 600-601). -/
def noSignificantMessage (url lastSha curSha : String) : String :=
  "## No significant changes in this release\n\n**Full Changelog**: " ++
    url ++ "/compare/" ++ encodeURIComponent lastSha ++ "..." ++ encodeURIComponent curSha

/-- The next-tag hop after an equivalence hit (src/changelog.ts lines
420-434): both the current and the previous SHA must be found in the tag
list, and a tag must exist after the later of the two. -/
def nextTagSha (h : Host) (t : String) : Option String :=
  match h.tags.findIdx? (fun tag => tag.sha == h.currentSha),
      h.tags.findIdx? (fun tag => tag.sha == t) with
  | some ci, some pi2 => (h.tags[max pi2 ci + 1]?).map (·.sha)
  | _, _ => none

/-- The parent-commit hop (src/changelog.ts lines 437-452): the first parent
of the target, when the lookup succeeds and a parent exists. -/
def parentSha (h : Host) (t : String) : Option String :=
  match h.getCommit t with
  | .ok c => c.parents.head?
  | .error _ => none

/-- The no-commits-processed retry hop (src/changelog.ts lines 585-595):
the tag after the target in the tag list. -/
def retryNextTag (h : Host) (t : Option String) : Option String :=
  match t with
  | some sha =>
    match h.tags.findIdx? (fun tag => tag.sha == sha) with
    | some ci => (h.tags[ci + 1]?).map (·.sha)
    | none => none
  | none => none

/-- The tail of the loop body: build the groups from the commit range,
retry on an empty result when already retrying, and render
(src/changelog.ts lines 494-614). -/
def processPart (h : Host) (cfg : BuildCfg) (lastSha : Option String) (s : LoopState)
    (cs : List RawCommit) : StepOut :=
  let r := processCommits cfg cs
  if r.2 = 0 ∧ 0 < s.retryCount ∧ s.retryCount < MAX_RETRIES then
    match retryNextTag h s.targetSha with
    | some nxt => .next ⟨some nxt, s.initialAttempt, s.retryCount + 1⟩
    | none =>
      if r.2 = 0 ∧ lastSha.isSome then
        .done (noSignificantMessage cfg.url (lastSha.getD "") h.currentSha)
      else .done (formatChangelog r.1 cfg.typeMap cfg.defaultType)
  else
    if r.2 = 0 ∧ lastSha.isSome then
      .done (noSignificantMessage cfg.url (lastSha.getD "") h.currentSha)
    else .done (formatChangelog r.1 cfg.typeMap cfg.defaultType)

/-- One execution of the loop body of `generateChangelog`. -/
def stepBuild (h : Host) (cfg : BuildCfg) (lastSha : Option String) (s : LoopState) : StepOut :=
  if s.retryCount < MAX_RETRIES then
    match s.targetSha with
    | some t =>
      if areTagsEffectivelyIdentical h t h.currentSha then
        match nextTagSha h t with
        | some n => .next ⟨some n, s.initialAttempt, s.retryCount + 1⟩
        | none =>
          match parentSha h t with
          | some ps => .next ⟨some ps, s.initialAttempt, s.retryCount + 1⟩
          | none =>
            match h.compare t h.currentSha with
            | .ok c => processPart h cfg lastSha s c.commits
            | .error _ =>
              if s.initialAttempt then .next ⟨none, false, s.retryCount⟩ else .fail
      else
        match h.compare t h.currentSha with
        | .ok c => processPart h cfg lastSha s c.commits
        | .error _ =>
          if s.initialAttempt then .next ⟨none, false, s.retryCount⟩ else .fail
    | none => processPart h cfg lastSha s h.listCommits
  else .done unableMessage

/-- Run the loop for at most `fuel` body executions. -/
def runBuild (h : Host) (cfg : BuildCfg) (lastSha : Option String) :
    Nat → LoopState → Option (Except Unit String)
  | 0, _ => none
  | fuel + 1, s =>
    match stepBuild h cfg lastSha s with
    | .done out => some (.ok out)
    | .fail => some (.error ())
    | .next s2 => runBuild h cfg lastSha fuel s2

/-- `generateChangelog`: the initial loop state and enough fuel for the
longest possible walk (eleven steps; see the termination measure). -/
def generateChangelog (h : Host) (cfg : BuildCfg) (lastSha : Option String) :
    Option (Except Unit String) :=
  runBuild h cfg lastSha 12 ⟨lastSha, lastSha.isSome, 0⟩

/-! ### Termination and the retry ceiling -/

/-- A `.next` outcome of the loop tail always increments the retry count
and preserves the fallback flag. -/
lemma processPart_next_shape (h : Host) (cfg : BuildCfg) (last : Option String)
    (s : LoopState) (cs : List RawCommit) (s2 : LoopState)
    (hst : processPart h cfg last s cs = .next s2) :
    ∃ nxt, s2 = ⟨some nxt, s.initialAttempt, s.retryCount + 1⟩ := by
  unfold processPart at hst
  dsimp only at hst
  by_cases hcond : (processCommits cfg cs).2 = 0 ∧ 0 < s.retryCount ∧ s.retryCount < MAX_RETRIES
  · rw [if_pos hcond] at hst
    cases hrt : retryNextTag h s.targetSha with
    | some nxt => rw [hrt] at hst; cases hst; exact ⟨nxt, rfl⟩
    | none =>
      rw [hrt] at hst
      dsimp only at hst
      by_cases h2 : (processCommits cfg cs).2 = 0 ∧ last.isSome = true
      · rw [if_pos h2] at hst; cases hst
      · rw [if_neg h2] at hst; cases hst
  · rw [if_neg hcond] at hst
    by_cases h2 : (processCommits cfg cs).2 = 0 ∧ last.isSome = true
    · rw [if_pos h2] at hst; cases hst
    · rw [if_neg h2] at hst; cases hst

/-- A `.next` outcome of the loop body either increments the retry count
(below the ceiling) or spends the one-shot fallback flag. -/
lemma stepBuild_next_shape (h : Host) (cfg : BuildCfg) (last : Option String)
    (s s2 : LoopState) (hst : stepBuild h cfg last s = .next s2) :
    s.retryCount < MAX_RETRIES ∧
      ((s2.retryCount = s.retryCount + 1 ∧ s2.initialAttempt = s.initialAttempt) ∨
       (s2.retryCount = s.retryCount ∧ s.initialAttempt = true ∧ s2.initialAttempt = false)) := by
  unfold stepBuild at hst
  by_cases hr : s.retryCount < MAX_RETRIES
  · refine ⟨hr, ?_⟩
    rw [if_pos hr] at hst
    cases hts : s.targetSha with
    | none =>
      rw [hts] at hst
      obtain ⟨nxt, rfl⟩ := processPart_next_shape h cfg last s _ s2 hst
      exact Or.inl ⟨rfl, rfl⟩
    | some t =>
      rw [hts] at hst
      dsimp only at hst
      by_cases heq : areTagsEffectivelyIdentical h t h.currentSha = true
      · rw [if_pos heq] at hst
        cases hnt : nextTagSha h t with
        | some n => rw [hnt] at hst; cases hst; exact Or.inl ⟨rfl, rfl⟩
        | none =>
          rw [hnt] at hst
          cases hps : parentSha h t with
          | some ps => rw [hps] at hst; cases hst; exact Or.inl ⟨rfl, rfl⟩
          | none =>
            rw [hps] at hst
            cases hcmp : h.compare t h.currentSha with
            | ok c =>
              rw [hcmp] at hst
              obtain ⟨nxt, rfl⟩ := processPart_next_shape h cfg last s _ s2 hst
              exact Or.inl ⟨rfl, rfl⟩
            | error e =>
              rw [hcmp] at hst
              by_cases hia : s.initialAttempt = true
              · rw [if_pos hia] at hst; cases hst; exact Or.inr ⟨rfl, hia, rfl⟩
              · rw [if_neg hia] at hst; cases hst
      · rw [if_neg heq] at hst
        cases hcmp : h.compare t h.currentSha with
        | ok c =>
          rw [hcmp] at hst
          obtain ⟨nxt, rfl⟩ := processPart_next_shape h cfg last s _ s2 hst
          exact Or.inl ⟨rfl, rfl⟩
        | error e =>
          rw [hcmp] at hst
          by_cases hia : s.initialAttempt = true
          · rw [if_pos hia] at hst; cases hst; exact Or.inr ⟨rfl, hia, rfl⟩
          · rw [if_neg hia] at hst; cases hst
  · rw [if_neg hr] at hst; cases hst

/-- Termination measure of the retry walk. -/
def buildMeasure (s : LoopState) : Nat :=
  2 * (MAX_RETRIES - s.retryCount) + (if s.initialAttempt then 1 else 0)

/-- Every loop iteration strictly decreases the measure. -/
lemma stepBuild_measure_lt (h : Host) (cfg : BuildCfg) (last : Option String)
    (s s2 : LoopState) (hst : stepBuild h cfg last s = .next s2) :
    buildMeasure s2 < buildMeasure s := by
  obtain ⟨hr, hsh⟩ := stepBuild_next_shape h cfg last s s2 hst
  unfold buildMeasure
  rcases hsh with ⟨h1, h2⟩ | ⟨h1, h2, h3⟩
  · rw [h1, h2]
    unfold MAX_RETRIES at hr ⊢
    cases s.initialAttempt <;> simp <;> omega
  · rw [h1, h2, h3]
    simp

/-- Enough fuel always reaches a verdict. -/
lemma runBuild_terminates (h : Host) (cfg : BuildCfg) (last : Option String) :
    ∀ (fuel : Nat) (s : LoopState), buildMeasure s < fuel →
      (runBuild h cfg last fuel s).isSome := by
  intro fuel
  induction fuel with
  | zero => intro s hm; omega
  | succ f ih =>
    intro s hm
    unfold runBuild
    cases hst : stepBuild h cfg last s with
    | done out => simp
    | fail => simp
    | next s2 =>
      have hd := stepBuild_measure_lt h cfg last s s2 hst
      exact ih s2 (by omega)

/-- C2: the retry walk always terminates (within the fuel bound of the
model) regardless of host responses; once the retry count reaches the
ceiling of 5 the loop exits immediately with the labeled
unable-to-generate text; and every continuing iteration starts below the
ceiling and stays at or below it. -/
theorem generateChangelog_retry_bounded (h : Host) (cfg : BuildCfg) (lastSha : Option String) :
    (∃ r, generateChangelog h cfg lastSha = some r) ∧
    (∀ s : LoopState, MAX_RETRIES ≤ s.retryCount →
      stepBuild h cfg lastSha s = .done unableMessage) ∧
    (∀ s s2 : LoopState, stepBuild h cfg lastSha s = .next s2 →
      s.retryCount < MAX_RETRIES ∧ s2.retryCount ≤ MAX_RETRIES) := by
  refine ⟨?_, ?_, ?_⟩
  · have hterm := runBuild_terminates h cfg lastSha 12 ⟨lastSha, lastSha.isSome, 0⟩
      (by cases lastSha.isSome <;> simp [buildMeasure, MAX_RETRIES])
    exact Option.isSome_iff_exists.mp hterm
  · intro s hs
    unfold stepBuild
    rw [if_neg (by omega)]
  · intro s s2 hst
    obtain ⟨hr, hsh⟩ := stepBuild_next_shape h cfg lastSha s s2 hst
    unfold MAX_RETRIES at hr ⊢
    rcases hsh with ⟨h1, _⟩ | ⟨h1, _, _⟩ <;> omega

/-- Witness for C2: on a host whose every call fails, the build still
terminates, and a state at the ceiling exits with the labeled text. -/
theorem generateChangelog_retry_bounded_witness :
    (∃ r, generateChangelog failHost plainCfg none = some r) ∧
    stepBuild failHost plainCfg none ⟨none, true, 5⟩ = .done unableMessage :=
  ⟨(generateChangelog_retry_bounded failHost plainCfg none).1,
    (generateChangelog_retry_bounded failHost plainCfg none).2.1 ⟨none, true, 5⟩ (by decide)⟩

/-! ### Use of an equivalent previous reference -/

/-- A host on which the chosen previous ref `t` proves equivalent to the
current ref (zero changed files), yet no next tag exists (empty tag list)
and `t` has no parents, while the compare range still returns one feature
commit. -/
def reuseHost : Host :=
  { currentSha := "cur", tags := [],
    compare := fun x y =>
      if x = "t" ∧ y = "cur" then
        .ok ⟨1, 0, "ahead", some 0,
          [{ sha := "f1", authorLogin := none,
             parsed := some { merge := false, revert := false, type := "feat", scope := "",
                              description := "hello", breaking := false, pr := none } }]⟩
      else .error (),
    getRef := fun _ => .error (), getTag := fun _ => .error (),
    getCommit := fun r => if r = "t" then .ok ⟨"T", []⟩ else .error (),
    listCommits := [] }

/-- Counterexample for C8: the equivalence check succeeds for the previous
reference, but with no next tag and no parent available the loop falls
through and builds the changelog from `compare(previous, current)` — the
equivalent previous reference is used as the diff base (the rendered entry
`hello` can only come from that range), instead of moving on or giving up. -/
theorem equivalent_base_reused_counterexample :
    areTagsEffectivelyIdentical reuseHost "t" "cur" = true ∧
    stepBuild reuseHost plainCfg (some "t") ⟨some "t", true, 0⟩ =
      .done "## Features\n* hello (f1)\n" ∧
    "## Features\n* hello (f1)\n" ≠ unableMessage := by
  refine ⟨by decide, by decide, by decide⟩

/-- C8 (amended): when the equivalence check flags the previous reference
and a next tag or a first parent is available, the loop does move on —
the continuing state replaces the target SHA and burns one retry; the
previous reference is reused as the diff base only when both hops are
unavailable, per the counterexample. -/
theorem equivalent_base_moves_on (h : Host) (cfg : BuildCfg) (last : Option String)
    (s : LoopState) (t : String)
    (hts : s.targetSha = some t) (hr : s.retryCount < MAX_RETRIES)
    (heq : areTagsEffectivelyIdentical h t h.currentSha = true) :
    (∀ n, nextTagSha h t = some n →
      stepBuild h cfg last s = .next ⟨some n, s.initialAttempt, s.retryCount + 1⟩) ∧
    (nextTagSha h t = none → ∀ ps, parentSha h t = some ps →
      stepBuild h cfg last s = .next ⟨some ps, s.initialAttempt, s.retryCount + 1⟩) := by
  constructor
  · intro n hn
    unfold stepBuild
    rw [if_pos hr, hts]
    dsimp only
    rw [heq, if_pos rfl, hn]
  · intro hn ps hps
    unfold stepBuild
    rw [if_pos hr, hts]
    dsimp only
    rw [heq, if_pos rfl, hn, hps]

/-- A host whose tag list still holds an older tag after the equivalent
pair. -/
def hopHost : Host :=
  { currentSha := "cur", tags := [⟨"v2", "cur"⟩, ⟨"v1", "t"⟩, ⟨"v0", "old"⟩],
    compare := fun x y =>
      if x = "t" ∧ y = "cur" then .ok ⟨0, 0, "identical", some 0, []⟩ else .error (),
    getRef := fun _ => .error (), getTag := fun _ => .error (),
    getCommit := fun r => if r = "t" then .ok ⟨"T", ["par"]⟩ else .error (),
    listCommits := [] }

/-- A host with no tag list but a retrievable first parent. -/
def parentHopHost : Host :=
  { currentSha := "cur", tags := [],
    compare := fun x y =>
      if x = "t" ∧ y = "cur" then .ok ⟨0, 0, "identical", some 0, []⟩ else .error (),
    getRef := fun _ => .error (), getTag := fun _ => .error (),
    getCommit := fun r => if r = "t" then .ok ⟨"T", ["par"]⟩ else .error (),
    listCommits := [] }

/-- Witness for the amended C8: the next-tag hop and the parent hop. -/
theorem equivalent_base_moves_on_witness :
    stepBuild hopHost plainCfg (some "t") ⟨some "t", true, 0⟩ = .next ⟨some "old", true, 1⟩ ∧
    stepBuild parentHopHost plainCfg (some "t") ⟨some "t", true, 0⟩ =
      .next ⟨some "par", true, 1⟩ :=
  ⟨(equivalent_base_moves_on hopHost plainCfg (some "t") ⟨some "t", true, 0⟩ "t"
      rfl (by decide) (by decide)).1 "old" (by decide),
   (equivalent_base_moves_on parentHopHost plainCfg (some "t") ⟨some "t", true, 0⟩ "t"
      rfl (by decide) (by decide)).2 (by decide) "par" (by decide)⟩

/-! ### The zero-entry outcomes -/

/-- Counterexample for C9: a build with no prior reference and no commits
returns the empty document (the rendered output of an empty tree), not a
labeled no-significant-changes result. -/
theorem empty_document_counterexample :
    generateChangelog failHost plainCfg none = some (.ok "") := rfl

/-- C9 (amended): when a prior reference was supplied and the first attempt
processes zero commits, the build returns the labeled no-significant-changes
result carrying the direct compare link; with no prior reference the
zero-entry build renders the empty document. -/
theorem no_significant_changes_result :
    (∀ (h : Host) (cfg : BuildCfg) (l : String) (s : LoopState) (t : String) (c : CompareData),
      s.targetSha = some t → s.retryCount = 0 →
      areTagsEffectivelyIdentical h t h.currentSha = false →
      h.compare t h.currentSha = .ok c → (processCommits cfg c.commits).2 = 0 →
      stepBuild h cfg (some l) s = .done (noSignificantMessage cfg.url l h.currentSha)) ∧
    ∀ (tm : List (String × String)) (dt : String), formatChangelog [] tm dt = "" := by
  constructor
  · intro h cfg l s t c hts hr0 heq hcmp hproc
    unfold stepBuild
    rw [if_pos (by rw [hr0]; unfold MAX_RETRIES; omega), hts]
    dsimp only
    rw [heq]
    simp only [Bool.false_eq_true, if_false]
    rw [hcmp]
    unfold processPart
    dsimp only
    rw [if_neg (by rw [hr0]; simp), if_pos ⟨hproc, rfl⟩]
    rfl
  · intro tm dt
    unfold formatChangelog formatLines
    have hempty : ∀ l : List String, l.flatMap (typeSection []) = [] := by
      intro l
      induction l with
      | nil => rfl
      | cons x xs ih => simp [typeSection, ih]
    rw [hempty]
    rfl

/-- A host whose compare range is clean but empty: the previous tag is
genuinely different, yet every commit is filtered out. -/
def emptyRangeHost : Host :=
  { currentSha := "cur", tags := [],
    compare := fun x y =>
      if x = "t" ∧ y = "cur" then .ok ⟨1, 0, "ahead", some 2, []⟩ else .error (),
    getRef := fun _ => .error (), getTag := fun _ => .error (),
    getCommit := fun _ => .error (), listCommits := [] }

/-- Witness for the amended C9. -/
theorem no_significant_changes_result_witness :
    stepBuild emptyRangeHost plainCfg (some "t") ⟨some "t", true, 0⟩ =
      .done (noSignificantMessage plainCfg.url "t" emptyRangeHost.currentSha) ∧
    formatChangelog [] plainCfg.typeMap plainCfg.defaultType = "" :=
  ⟨no_significant_changes_result.1 emptyRangeHost plainCfg "t" ⟨some "t", true, 0⟩ "t"
      ⟨1, 0, "ahead", some 2, []⟩ rfl rfl (by decide) rfl (by decide),
   no_significant_changes_result.2 plainCfg.typeMap plainCfg.defaultType⟩
